import Mathlib

/-!
Verification of the day-01 fuel calculator (Advent of Code 2019, day 1).

The source is a single Rust file, `src/day_01/src/main.rs`.  We embed its
data model (`Mass`, `Fuel`, both newtypes over `i64`), the two arithmetic
functions `Mass::fuel` and `Mass::total_fuel`, the input parsing done in
`main` (`str::lines` followed by `i64::from_str` on each line), and the
two aggregate sums that `main` prints.

Machine integers are modelled as `Int`; none of the arithmetic in the per
mass functions can overflow an `i64` (division by 3 shrinks values, and
the recursive total stays below three halves of the starting mass), and
`i64::from_str` itself rejects out-of-range literals, which the parsing
model checks explicitly.  The aggregate sums in `main` can overflow, so
they are modelled as `i64` addition with explicit two's-complement
wrap-around (`wrapI64`), Rust's defined overflow behaviour in a release
build; a debug build would panic on such an overflow instead, which also
aborts the run before any output.  Rust's `/` on `i64` truncates toward
zero, which is `Int.tdiv`.
-/

/-- Rust: `struct Mass(pub i64)` -/
structure Mass where
  val : Int
deriving DecidableEq, Repr

/-- Rust: `struct Fuel(pub i64)` -/
structure Fuel where
  val : Int
deriving DecidableEq, Repr

/-- Rust: `#[derive(Add)]` on `Fuel` adds the wrapped integers. -/
instance : Add Fuel := ⟨fun a b => ⟨a.val + b.val⟩⟩

/-- Rust: `Fuel::mass` — `x` fuel weighs `x` mass. -/
def Fuel.mass (f : Fuel) : Mass := ⟨f.val⟩

/-- Rust: `Mass::fuel` — `self.0 / 3 - 2`, `None` if that is negative.
`i64` division truncates toward zero, i.e. `Int.tdiv`. -/
def Mass.fuel (m : Mass) : Option Fuel :=
  let result := Int.tdiv m.val 3 - 2
  if result < 0 then none else some ⟨result⟩

theorem fuel_some_bounds {m : Mass} {f : Fuel} (h : m.fuel = some f) :
    0 ≤ f.val ∧ f.val < m.val := by
  unfold Mass.fuel at h
  simp only at h
  split at h
  · exact absurd h (by simp)
  · rename_i hnot
    obtain rfl : (⟨Int.tdiv m.val 3 - 2⟩ : Fuel) = f := by
      simpa using h
    push_neg at hnot
    refine ⟨hnot, ?_⟩
    show Int.tdiv m.val 3 - 2 < m.val
    have hnot' : 0 ≤ Int.tdiv m.val 3 - 2 := hnot
    have hpos : 0 < m.val := by
      by_contra hle
      push_neg at hle
      have h2 : 0 ≤ Int.tdiv (-m.val) 3 := Int.tdiv_nonneg (by omega) (by omega)
      have h3 : Int.tdiv (-m.val) 3 = -(Int.tdiv m.val 3) := Int.neg_tdiv m.val 3
      omega
    have hle3 : Int.tdiv m.val 3 ≤ m.val := by
      rw [Int.tdiv_eq_ediv (le_of_lt hpos) (by omega)]
      exact Int.ediv_le_self 3 (le_of_lt hpos)
    omega

theorem fuel_some_toNat_lt {m : Mass} {f : Fuel} (h : m.fuel = some f) :
    f.mass.val.toNat < m.val.toNat := by
  have hb := fuel_some_bounds h
  simp only [Fuel.mass]
  omega

/-- Rust: `Mass::total_fuel` — fuel, plus fuel for the fuel, recursively. -/
def Mass.totalFuel (m : Mass) : Fuel :=
  match h : m.fuel with
  | some fuel => fuel + fuel.mass.totalFuel
  | none => ⟨0⟩
termination_by m.val.toNat
decreasing_by exact fuel_some_toNat_lt h

theorem totalFuel_of_none {m : Mass} (h : m.fuel = none) :
    m.totalFuel = ⟨0⟩ := by
  conv_lhs => rw [Mass.totalFuel]
  split
  · rename_i g hg; rw [h] at hg; exact absurd hg (by simp)
  · rfl

theorem totalFuel_of_some {m : Mass} {f : Fuel} (h : m.fuel = some f) :
    m.totalFuel = f + f.mass.totalFuel := by
  conv_lhs => rw [Mass.totalFuel]
  split
  · rename_i g hg
    rw [h] at hg
    obtain rfl : f = g := Option.some.inj hg
    rfl
  · rename_i hn
    rw [h] at hn
    exact absurd hn (by simp)

/-- Gas-bounded unfolding of the `total_fuel` recursion: `none` means the
gas ran out before the recursion reached its base case.  Used to state
termination of `Mass.totalFuel` and to evaluate it on concrete inputs. -/
def totalFuelGas : Nat → Mass → Option Fuel
  | 0, _ => none
  | n + 1, m =>
    match m.fuel with
    | none => some ⟨0⟩
    | some f =>
      match totalFuelGas n f.mass with
      | none => none
      | some r => some (f + r)

theorem totalFuelGas_sound :
    ∀ (n : Nat) (m : Mass) (f : Fuel), totalFuelGas n m = some f → m.totalFuel = f := by
  intro n
  induction n with
  | zero => intro m f h; simp [totalFuelGas] at h
  | succ n ih =>
    intro m f h
    unfold totalFuelGas at h
    split at h
    · rename_i hf
      obtain rfl : (⟨0⟩ : Fuel) = f := Option.some.inj h
      exact totalFuel_of_none hf
    · rename_i g hf
      split at h
      · exact absurd h (by simp)
      · rename_i r hr
        obtain rfl : g + r = f := Option.some.inj h
        rw [totalFuel_of_some hf, ih g.mass r hr]

theorem totalFuelGas_complete :
    ∀ (n : Nat) (m : Mass), m.val.toNat < n → totalFuelGas n m = some m.totalFuel := by
  intro n
  induction n with
  | zero => intro m h; omega
  | succ n ih =>
    intro m hlt
    unfold totalFuelGas
    cases hf : m.fuel with
    | none =>
      show some (⟨0⟩ : Fuel) = some m.totalFuel
      rw [totalFuel_of_none hf]
    | some f =>
      have hb := fuel_some_bounds hf
      have hrec : totalFuelGas n f.mass = some f.mass.totalFuel := by
        apply ih
        simp only [Fuel.mass]
        omega
      show (match totalFuelGas n f.mass with
            | none => none
            | some r => some (f + r)) = some m.totalFuel
      rw [hrec, totalFuel_of_some hf]

theorem totalFuel_nonneg (m : Mass) : 0 ≤ m.totalFuel.val := by
  generalize hk : m.val.toNat = k
  induction k using Nat.strong_induction_on generalizing m with
  | _ k ih =>
    cases hf : m.fuel with
    | none => rw [totalFuel_of_none hf]
    | some f =>
      have hb := fuel_some_bounds hf
      rw [totalFuel_of_some hf]
      have hrec : 0 ≤ f.mass.totalFuel.val := by
        apply ih f.mass.val.toNat _ f.mass rfl
        simp only [Fuel.mass]
        omega
      show 0 ≤ f.val + f.mass.totalFuel.val
      omega

/-- One split step of Rust `str::lines`: cut the text at every newline
character.  `splitNl s` is never empty; a final newline leaves a final
empty piece, which `rustLines` removes just as `str::lines` does. -/
def splitNl : List Char → List (List Char)
  | [] => [[]]
  | c :: rest =>
    if c = '\n' then [] :: splitNl rest
    else
      match splitNl rest with
      | l :: ls => (c :: l) :: ls
      | [] => [[c]]

/-- One trailing carriage return stripped, the suffix handling of
`str::lines` (CRLF): a piece that was terminated by a newline loses one
`\r` standing right before that newline. -/
def stripCr (l : List Char) : List Char :=
  if l.getLast? = some '\r' then l.dropLast else l

/-- Rust `str::lines`: split at newlines; every piece except the final
one was terminated by a newline and has one `\r` before that newline
stripped (`"\r\n"` line endings); the final piece, the text after the
last newline, is dropped when empty and otherwise kept verbatim — in
particular a final line without a terminating newline keeps a trailing
`\r` (`"foo\r\nbar\n\nbaz\r"` yields `"foo"`, `"bar"`, `""`, `"baz\r"`). -/
def rustLines (s : List Char) : List (List Char) :=
  let ls := splitNl s
  ls.dropLast.map stripCr ++
    (if ls.getLast? = some [] then [] else ls.getLast?.toList)

/-- Accumulate the numeric value of a run of ASCII digits; `none` at the
first non-digit character. -/
def parseDigits : List Char → Nat → Option Nat
  | [], acc => some acc
  | c :: cs, acc =>
    if c.isDigit then parseDigits cs (acc * 10 + (c.toNat - 48)) else none

/-- Magnitude part of an integer literal: one or more ASCII digits. -/
def parseMag (ds : List Char) : Option Nat :=
  match ds with
  | [] => none
  | _ => parseDigits ds 0

/-- The greatest `i64`, `2 ^ 63 - 1`. -/
def i64Max : Int := 9223372036854775807

/-- Model of Rust `i64::from_str`, which the `FromStr` derive on `Mass`
forwards to: an optional sign followed by one or more ASCII digits,
nothing else (in particular no surrounding whitespace), and the value in
the `i64` range.  Overflow during accumulation is equivalent to the final
magnitude being out of range, since the accumulator only grows. -/
def parseI64 (s : List Char) : Option Int :=
  match s with
  | '+' :: rest =>
    (parseMag rest).bind fun n => if (n : Int) ≤ i64Max then some (n : Int) else none
  | '-' :: rest =>
    (parseMag rest).bind fun n => if (n : Int) ≤ i64Max + 1 then some (-(n : Int)) else none
  | _ =>
    (parseMag s).bind fun n => if (n : Int) ≤ i64Max then some (n : Int) else none

/-- Rust: `x.parse::<Mass>()` on one input line. -/
def parseMass (l : List Char) : Option Mass :=
  (parseI64 l).map Mass.mk

/-- Parsing the whole line list; `none` models the `expect` panic on a bad
line (the program aborts before printing anything either way). -/
def parseAll : List (List Char) → Option (List Mass)
  | [] => some []
  | l :: ls =>
    match parseMass l, parseAll ls with
    | some m, some ms => some (m :: ms)
    | _, _ => none

/-- Two's-complement wrap-around into the `i64` range: Rust's defined
behaviour for `i64` addition overflow in a release build (a debug build
panics instead, which also aborts before any output). -/
def wrapI64 (x : Int) : Int := (x + 2 ^ 63) % 2 ^ 64 - 2 ^ 63

/-- Sum of a list of `Fuel` values (the `Sum` derive on `Fuel`): a left
fold of `i64` addition starting from zero, wrapping on overflow. -/
def fuelSum (fs : List Fuel) : Fuel :=
  fs.foldl (fun acc f => ⟨wrapI64 (acc.val + f.val)⟩) ⟨0⟩

/-- Rust `main`, up to printing: split the input into lines, parse each as
a `Mass` (aborting on failure), then the part 1 total
(`fuel().unwrap_or(Fuel(0))` summed) and the part 2 total
(`total_fuel()` summed). -/
def runMain (input : List Char) : Option (Fuel × Fuel) :=
  (parseAll (rustLines input)).map fun masses =>
    (fuelSum (masses.map fun m => (m.fuel).getD ⟨0⟩),
     fuelSum (masses.map Mass.totalFuel))

/-- Modelled from the spec (section 4.1): trimming whitespace around a
value, the treatment the spec claims each line receives before parsing.
The code under `src/` never trims; this definition exists only to compare
the two behaviours. -/
def specTrim (l : List Char) : List Char :=
  ((l.dropWhile Char.isWhitespace).reverse.dropWhile Char.isWhitespace).reverse

theorem splitNl_cons (c : Char) (rest : List Char) :
    splitNl (c :: rest) =
      if c = '\n' then [] :: splitNl rest
      else
        match splitNl rest with
        | l :: ls => (c :: l) :: ls
        | [] => [[c]] := rfl

theorem splitNl_ne_nil (s : List Char) : splitNl s ≠ [] := by
  cases s with
  | nil => simp [splitNl]
  | cons c rest =>
    rw [splitNl_cons]
    split
    · simp
    · split <;> simp

theorem splitNl_exists_cons (s : List Char) :
    ∃ l ls, splitNl s = l :: ls := by
  cases h : splitNl s with
  | nil => exact absurd h (splitNl_ne_nil s)
  | cons a b => exact ⟨a, b, rfl⟩

theorem splitNl_append_nl (s : List Char) :
    splitNl (s ++ ['\n']) = splitNl s ++ [[]] := by
  induction s with
  | nil => rfl
  | cons c rest ih =>
    obtain ⟨l, ls, he⟩ := splitNl_exists_cons rest
    rw [List.cons_append, splitNl_cons, splitNl_cons, ih, he]
    by_cases hc : c = '\n' <;> simp [hc]

theorem getLast?_cons_of_ne_nil {α : Type} (c : α) {l : List α} (h : l ≠ []) :
    (c :: l).getLast? = l.getLast? := by
  cases l with
  | nil => exact absurd rfl h
  | cons a b => exact List.getLast?_cons_cons

theorem splitNl_getLast_last (s : List Char) (h0 : s ≠ []) (h1 : s.getLast? ≠ some '\n') :
    ∃ t, (splitNl s).getLast? = some t ∧ t ≠ [] ∧ t.getLast? = s.getLast? := by
  induction s with
  | nil => exact absurd rfl h0
  | cons c rest ih =>
    cases rest with
    | nil =>
      have hc : c ≠ '\n' := by simpa using h1
      refine ⟨[c], ?_, by simp, by simp⟩
      rw [splitNl_cons, if_neg hc]
      rfl
    | cons d ds =>
      have h1' : (d :: ds).getLast? ≠ some '\n' := by
        rwa [List.getLast?_cons_cons] at h1
      obtain ⟨t, ht, htne, htlast⟩ := ih (by simp) h1'
      obtain ⟨l, ls, he⟩ := splitNl_exists_cons (d :: ds)
      rw [he] at ht
      by_cases hc : c = '\n'
      · refine ⟨t, ?_, htne, ?_⟩
        · rw [splitNl_cons, if_pos hc, he, List.getLast?_cons_cons]
          exact ht
        · rw [List.getLast?_cons_cons]
          exact htlast
      · cases ls with
        | nil =>
          obtain rfl : t = l := by simpa using ht.symm
          refine ⟨c :: t, ?_, by simp, ?_⟩
          · rw [splitNl_cons, if_neg hc, he]
            rfl
          · rw [List.getLast?_cons_cons, getLast?_cons_of_ne_nil c htne]
            exact htlast
        | cons l2 ls2 =>
          refine ⟨t, ?_, htne, ?_⟩
          · rw [splitNl_cons, if_neg hc, he]
            show ((c :: l) :: l2 :: ls2).getLast? = some t
            rw [List.getLast?_cons_cons]
            rw [List.getLast?_cons_cons] at ht
            exact ht
          · rw [List.getLast?_cons_cons]
            exact htlast

theorem rustLines_append_nl (s : List Char) (h0 : s ≠ []) (h1 : s.getLast? ≠ some '\n')
    (h2 : s.getLast? ≠ some '\r') :
    rustLines (s ++ ['\n']) = rustLines s := by
  obtain ⟨t, ht, htne, htlast⟩ := splitNl_getLast_last s h0 h1
  have hstrip : stripCr t = t := by
    unfold stripCr
    rw [if_neg]
    rw [htlast]
    exact h2
  have hne := splitNl_ne_nil s
  have e := List.dropLast_concat_getLast hne
  have e2 : (splitNl s).getLast hne = t := by
    have h3 := List.getLast?_eq_getLast (splitNl s) hne
    rw [ht] at h3
    exact (Option.some.inj h3).symm
  simp only [rustLines]
  rw [splitNl_append_nl, List.getLast?_concat, if_pos rfl, List.dropLast_concat, ht,
    if_neg (fun hcon => htne (Option.some.inj hcon))]
  conv_lhs => rw [← e]
  rw [e2]
  simp [hstrip]

theorem parseAll_eq_none_iff (ls : List (List Char)) :
    parseAll ls = none ↔ ∃ l ∈ ls, parseMass l = none := by
  induction ls with
  | nil => simp [parseAll]
  | cons l ls ih =>
    constructor
    · intro h
      cases hm : parseMass l with
      | none => exact ⟨l, by simp, hm⟩
      | some m =>
        cases hp : parseAll ls with
        | none =>
          obtain ⟨x, hx, hxn⟩ := ih.mp hp
          exact ⟨x, by simp [hx], hxn⟩
        | some ms =>
          rw [show parseAll (l :: ls) =
                (match parseMass l, parseAll ls with
                 | some m, some ms => some (m :: ms)
                 | _, _ => none) from rfl, hm, hp] at h
          exact absurd h (by simp)
    · rintro ⟨x, hx, hxn⟩
      rw [show parseAll (l :: ls) =
            (match parseMass l, parseAll ls with
             | some m, some ms => some (m :: ms)
             | _, _ => none) from rfl]
      rcases List.mem_cons.mp hx with he | hmem
      · subst he
        rw [hxn]
      · rw [ih.mpr ⟨x, hmem, hxn⟩]
        cases parseMass l <;> rfl

/-- C1: for every signed integer mass `m`, `fuel (Mass m)` is
`some (Fuel (m.tdiv 3 - 2))` — truncating (toward-zero) division — when
`m.tdiv 3 - 2 ≥ 0`, and `none` when it is negative; a negative fuel
quantity is never returned. -/
theorem fuel_formula_correct (m : Int) :
    (0 ≤ Int.tdiv m 3 - 2 → (Mass.mk m).fuel = some ⟨Int.tdiv m 3 - 2⟩) ∧
    (Int.tdiv m 3 - 2 < 0 → (Mass.mk m).fuel = none) ∧
    (∀ f : Fuel, (Mass.mk m).fuel = some f → 0 ≤ f.val) := by
  refine ⟨fun h => ?_, fun h => ?_, fun f hf => (fuel_some_bounds hf).1⟩
  · have hn : ¬ (Int.tdiv m 3 - 2 < 0) := by omega
    simp [Mass.fuel, hn]
  · simp [Mass.fuel, h]

theorem fuel_formula_correct_witness :
    (Mass.mk 12).fuel = some ⟨Int.tdiv 12 3 - 2⟩ ∧
    (Mass.mk 2).fuel = none ∧ 0 ≤ (Fuel.mk 2).val :=
  ⟨(fuel_formula_correct 12).1 (by decide),
   (fuel_formula_correct 2).2.1 (by decide),
   (fuel_formula_correct 12).2.2 ⟨2⟩ (by decide)⟩

/-- C2: `totalFuel (Mass m)` is `Fuel 0` when `fuel (Mass m)` is `none`,
and `f + totalFuel (mass f)` when `fuel (Mass m) = some f`, where
`mass (Fuel x) = Mass x`. -/
theorem totalFuel_recursion_eq (m : Mass) :
    (m.fuel = none → m.totalFuel = ⟨0⟩) ∧
    (∀ f : Fuel, m.fuel = some f → m.totalFuel = f + f.mass.totalFuel) :=
  ⟨totalFuel_of_none, fun _ => totalFuel_of_some⟩

theorem totalFuel_recursion_eq_witness :
    (Mass.mk 2).totalFuel = ⟨0⟩ ∧
    (Mass.mk 12).totalFuel = ⟨2⟩ + (Fuel.mk 2).mass.totalFuel :=
  ⟨(totalFuel_recursion_eq ⟨2⟩).1 (by decide),
   (totalFuel_recursion_eq ⟨12⟩).2 ⟨2⟩ (by decide)⟩

/-- C3: `totalFuel` terminates for every non-negative mass: some finite
amount of gas makes the gas-bounded unfolding of the recursion reach the
base case and return the value of `totalFuel` (the recursion is strictly
decreasing, so `m.val.toNat + 1` steps always suffice). -/
theorem totalFuel_terminates (m : Mass) (h : 0 ≤ m.val) :
    ∃ n : Nat, totalFuelGas n m = some m.totalFuel :=
  ⟨m.val.toNat + 1, totalFuelGas_complete (m.val.toNat + 1) m (by omega)⟩

theorem totalFuel_terminates_witness :
    ∃ n : Nat, totalFuelGas n ⟨1969⟩ = some (Mass.mk 1969).totalFuel :=
  totalFuel_terminates ⟨1969⟩ (by decide)

/-- C4 as claimed is false: `fuel (Mass 6) = some (Fuel 0)` although
`0 ≤ 6 < 9`, so it is not the case that every non-negative mass below 9
has absent fuel. -/
theorem fuel_below_nine_counterexample :
    ¬ (∀ m : Int, 0 ≤ m → m < 9 → (Mass.mk m).fuel = none) := by
  intro h
  exact absurd (h 6 (by decide) (by decide)) (by decide)

/-- C4 amended: for every non-negative integer `m` strictly below 6,
`fuel (Mass m)` is `none` (for `m = 6, 7, 8` it is `some (Fuel 0)`). -/
theorem fuel_below_six_none (m : Int) (h0 : 0 ≤ m) (h6 : m < 6) :
    (Mass.mk m).fuel = none := by
  interval_cases m <;> decide

theorem fuel_below_six_none_witness : (Mass.mk 5).fuel = none :=
  fuel_below_six_none 5 (by decide) (by decide)

/-- C5: for every mass `m ≥ 0`, the recursive total fuel is at least the
direct fuel `fuel(m).unwrap_or(Fuel 0)`. -/
theorem totalFuel_ge_fuel (m : Mass) (h : 0 ≤ m.val) :
    ((m.fuel).getD ⟨0⟩).val ≤ m.totalFuel.val := by
  cases hf : m.fuel with
  | none => rw [totalFuel_of_none hf]; simp
  | some f =>
    rw [totalFuel_of_some hf]
    have hrec := totalFuel_nonneg f.mass
    show f.val ≤ f.val + f.mass.totalFuel.val
    omega

theorem totalFuel_ge_fuel_witness :
    (((Mass.mk 14).fuel).getD ⟨0⟩).val ≤ (Mass.mk 14).totalFuel.val :=
  totalFuel_ge_fuel ⟨14⟩ (by decide)

/-- C6: every fuel value the program produces is non-negative: whenever
`fuel (Mass m) = some f` then `f ≥ 0`, and `totalFuel (Mass m) ≥ 0`, for
every integer mass `m`. -/
theorem fuel_values_nonneg (m : Int) :
    (∀ f : Fuel, (Mass.mk m).fuel = some f → 0 ≤ f.val) ∧
    0 ≤ (Mass.mk m).totalFuel.val :=
  ⟨fun _ hf => (fuel_some_bounds hf).1, totalFuel_nonneg _⟩

theorem fuel_values_nonneg_witness :
    0 ≤ (Fuel.mk 2).val ∧ 0 ≤ (Mass.mk 12).totalFuel.val :=
  ⟨(fuel_values_nonneg 12).1 ⟨2⟩ (by decide), (fuel_values_nonneg 12).2⟩

/-- C7: the two fuel functions match all documented test vectors. -/
theorem fuel_test_vectors :
    (Mass.mk 12).fuel = some ⟨2⟩ ∧ (Mass.mk 14).fuel = some ⟨2⟩ ∧
    (Mass.mk 1969).fuel = some ⟨654⟩ ∧ (Mass.mk 100756).fuel = some ⟨33583⟩ ∧
    (Mass.mk 14).totalFuel = ⟨2⟩ ∧ (Mass.mk 1969).totalFuel = ⟨966⟩ ∧
    (Mass.mk 100756).totalFuel = ⟨50346⟩ :=
  ⟨by decide, by decide, by decide, by decide,
   totalFuelGas_sound 3 _ _ (by decide),
   totalFuelGas_sound 7 _ _ (by decide),
   totalFuelGas_sound 12 _ _ (by decide)⟩

/-- C10: every strictly negative mass yields `none` direct fuel and zero
total fuel. -/
theorem negative_mass_no_fuel (m : Int) (h : m < 0) :
    (Mass.mk m).fuel = none ∧ (Mass.mk m).totalFuel = ⟨0⟩ := by
  have h2 : 0 ≤ Int.tdiv (-m) 3 := Int.tdiv_nonneg (by omega) (by omega)
  have h3 : Int.tdiv (-m) 3 = -(Int.tdiv m 3) := Int.neg_tdiv m 3
  have hneg : Int.tdiv m 3 - 2 < 0 := by omega
  have hf : (Mass.mk m).fuel = none := by simp [Mass.fuel, hneg]
  exact ⟨hf, totalFuel_of_none hf⟩

theorem negative_mass_no_fuel_witness :
    (Mass.mk (-5)).fuel = none ∧ (Mass.mk (-5)).totalFuel = ⟨0⟩ :=
  negative_mass_no_fuel (-5) (by decide)

/-- C8 as claimed is false: the parser does not trim whitespace — the line
`" 12"` fails to parse (aborting the run) although its trimmed form `"12"`
parses fine — and an input whose two trailing newlines leave an empty line
(`"12\n\n"`) aborts instead of ignoring that line. -/
theorem parser_no_trim_counterexample :
    (¬ ∀ l : List Char, parseMass l = parseMass (specTrim l)) ∧
    parseMass (" 12".toList) = none ∧
    parseMass (specTrim (" 12".toList)) = some ⟨12⟩ ∧
    runMain (" 12".toList) = none ∧
    runMain ("12\n\n".toList) = none := by
  refine ⟨fun h => ?_, by decide, by decide, by decide, by decide⟩
  have h2 := h (" 12".toList)
  revert h2
  decide

/-- C8 amended: no trimming is performed — a line starting with a space
never parses, and the empty line never parses (so a surrounded value or an
interior empty line aborts the run); the only ignored empty segment is the
one a single terminating newline would create, which line splitting never
produces: appending one final newline to an input that is non-empty and
ends in neither a newline nor a carriage return leaves the line list
unchanged (a final bare `\r` is kept verbatim by `str::lines` but
stripped once a newline follows it, so it is excluded here). -/
theorem parser_untrimmed_lines (l s : List Char) :
    parseMass (' ' :: l) = none ∧
    parseMass [] = none ∧
    (s ≠ [] → s.getLast? ≠ some '\n' → s.getLast? ≠ some '\r' →
      rustLines (s ++ ['\n']) = rustLines s) :=
  ⟨rfl, rfl, rustLines_append_nl s⟩

theorem parser_untrimmed_lines_witness :
    parseMass (' ' :: "12".toList) = none ∧
    parseMass [] = none ∧
    rustLines ("12".toList ++ ['\n']) = rustLines ("12".toList) :=
  ⟨(parser_untrimmed_lines "12".toList "12".toList).1,
   (parser_untrimmed_lines "12".toList "12".toList).2.1,
   (parser_untrimmed_lines "12".toList "12".toList).2.2 (by decide) (by decide) (by decide)⟩

/-- C9: if any line of the input fails to parse as an integer the program
aborts with no output at all (`runMain` is `none`, neither total is
produced); if every line parses, both totals are computed and returned. -/
theorem main_all_or_nothing (input : List Char) :
    ((∃ l ∈ rustLines input, parseMass l = none) → runMain input = none) ∧
    ((∀ l ∈ rustLines input, parseMass l ≠ none) →
      ∃ masses, parseAll (rustLines input) = some masses ∧
        runMain input = some
          (fuelSum (masses.map fun m => (m.fuel).getD ⟨0⟩),
           fuelSum (masses.map Mass.totalFuel))) := by
  constructor
  · intro h
    have hn := (parseAll_eq_none_iff (rustLines input)).mpr h
    simp [runMain, hn]
  · intro h
    cases hp : parseAll (rustLines input) with
    | none =>
      obtain ⟨l, hl, hln⟩ := (parseAll_eq_none_iff (rustLines input)).mp hp
      exact absurd hln (h l hl)
    | some masses =>
      exact ⟨masses, rfl, by simp [runMain, hp]⟩

theorem main_all_or_nothing_witness :
    runMain ("12\nabc".toList) = none ∧
    ∃ masses, parseAll (rustLines ("12\n14".toList)) = some masses ∧
      runMain ("12\n14".toList) = some
        (fuelSum (masses.map fun m => (m.fuel).getD ⟨0⟩),
         fuelSum (masses.map Mass.totalFuel)) :=
  ⟨(main_all_or_nothing ("12\nabc".toList)).1 (by decide),
   (main_all_or_nothing ("12\n14".toList)).2 (by decide)⟩
